import Mathlib

/-!
Verification of the interactive tree selection engine of tree-txt
(`src/file_selector.rs`).

The filesystem is modelled flatly: a `Path` is the list of name components
relative to the base directory of the selector (the base itself is `[]`), and a
filesystem `Fs` is a finite association list from paths to entry kinds.
`read_dir p` succeeds iff `p` is present with kind `dirReadable`, and then
yields exactly the entries one component below `p`, in list order (modelling
the unspecified order of `std::fs::read_dir`).  `dirUnreadable` models a
directory that `stat`s as a directory (`path.is_dir()` is true) but whose
listing fails (permissions, race).  A path absent from the list does not
exist.

Rust `HashSet<PathBuf>` values (`selected_files`, `expanded_dirs`) are
modelled as `Finset Path`; `ListState::selected()` as `Option Nat`.

Recursive traversals (`build_tree`, `get_all_files_in_directory`) are given
by a fuel-indexed function; the public definitions apply them at fuel
`maxPathLen fs + 1`, which is proven sufficient (`buildTreeF_fuel_congr`),
so the fuel never alters the modelled behaviour.
-/

namespace TreeTxt

/-- A path relative to the base directory of the selector, as its list of name
components; the base directory itself is `[]`. -/
abbrev Path : Type := List String

/-- What the filesystem holds at a path: a regular file, a directory whose
contents can be listed, or a directory that exists (`is_dir()` is true) but
whose `read_dir` fails. -/
inductive Kind : Type where
  | file : Kind
  | dirReadable : Kind
  | dirUnreadable : Kind
deriving DecidableEq, Repr

/-- A filesystem: a finite association of paths to kinds. -/
abbrev Fs : Type := List (Path × Kind)

/-- The kind the filesystem reports at `p` (first matching entry), if any. -/
def lookupKind (fs : Fs) (p : Path) : Option Kind :=
  (fs.find? (fun e => e.1 == p)).map (fun e => e.2)

/-- Rust `path.is_dir()`: true iff the path exists and is a directory
(readable or not); false for files and for absent paths. -/
def isDirAt (fs : Fs) (p : Path) : Bool :=
  match lookupKind fs p with
  | some Kind.file => false
  | some Kind.dirReadable => true
  | some Kind.dirUnreadable => true
  | none => false

/-- Whether a kind is a directory kind (`path.is_dir()` for an existing
entry). -/
def kindIsDir : Kind → Bool
  | Kind.file => false
  | Kind.dirReadable => true
  | Kind.dirUnreadable => true

/-- The final name component of a path (Rust `entry.file_name()`). -/
def nameOf (p : Path) : String := p.getLastD ""

/-- Rust `name.starts_with('.')`: the first character is a dot (false for
the empty name). -/
def dotName (s : String) : Bool :=
  match s.data with
  | [] => false
  | c :: _ => c == '.'

/-- The hidden-file filter of `build_tree` and `get_all_files_in_directory`:
keep an entry iff `show_hidden` is on or its name does not start with a
dot. -/
def visibleP (sh : Bool) (p : Path) : Bool :=
  sh || !(dotName (nameOf p))

/-- Name comparison used for sorting: byte/codepoint lexicographic order on
the name (Rust compares `OsString`s byte-wise; on UTF-8 this is codepoint
lexicographic order, here order on `String.data`). -/
def nameLE (a b : String) : Prop := a.data ≤ b.data

instance : DecidableRel nameLE := fun a b =>
  inferInstanceAs (Decidable (a.data ≤ b.data))

/-- The comparator used by the `sort_by` in `build_tree`, as a `≤` relation:
directories strictly before files; within a group, names compared
lexicographically. -/
def entLE (a b : Path × Kind) : Prop :=
  (kindIsDir a.2 = true ∧ kindIsDir b.2 = false) ∨
    (kindIsDir a.2 = kindIsDir b.2 ∧ nameLE (nameOf a.1) (nameOf b.1))

instance : DecidableRel entLE := fun a b =>
  inferInstanceAs (Decidable ((kindIsDir a.2 = true ∧ kindIsDir b.2 = false) ∨
    (kindIsDir a.2 = kindIsDir b.2 ∧ nameLE (nameOf a.1) (nameOf b.1))))

instance : IsTotal (Path × Kind) entLE := by
  constructor
  intro a b
  rcases ha : kindIsDir a.2 <;> rcases hb : kindIsDir b.2
  · rcases le_total (nameOf a.1).data (nameOf b.1).data with h | h
    · exact Or.inl (Or.inr ⟨by rw [ha, hb], h⟩)
    · exact Or.inr (Or.inr ⟨by rw [ha, hb], h⟩)
  · exact Or.inr (Or.inl ⟨hb, ha⟩)
  · exact Or.inl (Or.inl ⟨ha, hb⟩)
  · rcases le_total (nameOf a.1).data (nameOf b.1).data with h | h
    · exact Or.inl (Or.inr ⟨by rw [ha, hb], h⟩)
    · exact Or.inr (Or.inr ⟨by rw [ha, hb], h⟩)

instance : IsTrans (Path × Kind) entLE := by
  constructor
  intro a b c hab hbc
  rcases hab with ⟨ha, hb⟩ | ⟨hab, hn1⟩
  · rcases hbc with ⟨hb2, hc⟩ | ⟨hbc, hn2⟩
    · rw [hb] at hb2; cases hb2
    · exact Or.inl ⟨ha, hbc ▸ hb⟩
  · rcases hbc with ⟨hb2, hc⟩ | ⟨hbc, hn2⟩
    · exact Or.inl ⟨hab ▸ hb2, hc⟩
    · exact Or.inr ⟨hab.trans hbc, le_trans hn1 hn2⟩

/-- The entries `fs::read_dir dirPath` yields (before hidden filtering):
the filesystem entries exactly one component below `dirPath`, in
filesystem order. -/
def childrenOf (fs : Fs) (dirPath : Path) : List (Path × Kind) :=
  fs.filter (fun e => e.1.length == dirPath.length + 1 && dirPath.isPrefixOf e.1)

/-- The children of `dirPath` after the hidden filter, sorted by
the `build_tree` comparator: directories first, then files, each group
alphabetical by name. -/
def sortedChildren (fs : Fs) (sh : Bool) (dirPath : Path) : List (Path × Kind) :=
  List.insertionSort entLE ((childrenOf fs dirPath).filter (fun e => visibleP sh e.1))

/-- One row of the flattened tree, mirroring the Rust `FileItem` struct. -/
structure FileItem : Type where
  path : Path
  name : String
  isDir : Bool
  isSelected : Bool
  isExpanded : Bool
  depth : Nat
deriving DecidableEq, Repr

/-- The row `build_tree` pushes for the child entry `e` of a directory being
materialized at row depth `depth`. -/
def childRow (exp sel : Finset Path) (depth : Nat) (e : Path × Kind) : FileItem :=
  { path := e.1
    name := nameOf e.1
    isDir := kindIsDir e.2
    isSelected := !(kindIsDir e.2) && decide (e.1 ∈ sel)
    isExpanded := kindIsDir e.2 && decide (e.1 ∈ exp)
    depth := depth }

/-- One iteration of the `build_tree` entry loop: push the row for entry `e`,
and when `e` is an expanded directory recurse via `rec`; a failing recursion
aborts the loop, keeping the rows pushed so far (the Boolean is the success
flag, `false` meaning the `?`-propagated error). -/
def rowStep (exp sel : Finset Path) (depth : Nat)
    (rec : Path → List FileItem × Bool) (e : Path × Kind)
    (acc : List FileItem × Bool) : List FileItem × Bool :=
  let row := childRow exp sel depth e
  if kindIsDir e.2 && decide (e.1 ∈ exp) then
    match rec e.1 with
    | (sub, false) => (row :: sub, false)
    | (sub, true) => (row :: sub ++ acc.1, acc.2)
  else (row :: acc.1, acc.2)

/-- Fuel-indexed `build_tree`: materialize the subtree rooted at `dirPath`
with rows at depth `depth`.  Returns the flattened rows together with a
success flag; `read_dir` failure (missing path, file, or unreadable
directory) yields `([], false)`, the Rust `Err` with no rows pushed at this
level. -/
def buildTreeF : Nat → Fs → Bool → Finset Path → Finset Path → Path → Nat →
    List FileItem × Bool
  | 0, _, _, _, _, _, _ => ([], false)
  | fuel + 1, fs, sh, exp, sel, dirPath, depth =>
    match lookupKind fs dirPath with
    | some Kind.dirReadable =>
        (sortedChildren fs sh dirPath).foldr
          (rowStep exp sel depth (fun q => buildTreeF fuel fs sh exp sel q (depth + 1)))
          ([], true)
    | _ => ([], false)

/-- The largest path length present in the filesystem; recursion never
descends past it, so `maxPathLen fs + 1` is sufficient fuel. -/
def maxPathLen (fs : Fs) : Nat :=
  (fs.map (fun e => e.1.length)).foldr Nat.max 0

/-- `build_tree` of `src/file_selector.rs`: depth-first pre-order
materialization of the rows of the subtree rooted at `dirPath`, recursing
exactly into expanded directories; the Boolean is true iff no `read_dir`
failed. -/
def buildTree (fs : Fs) (sh : Bool) (exp sel : Finset Path)
    (dirPath : Path) (depth : Nat) : List FileItem × Bool :=
  buildTreeF (maxPathLen fs + 1) fs sh exp sel dirPath depth

/-- One iteration of the `get_all_files_in_directory` entry loop: skip hidden
entries, collect a file, recurse (via `rec`) into a directory whether
expanded or not. -/
def gafStep (sh : Bool) (rec : Path → List Path) (e : Path × Kind)
    (acc : List Path) : List Path :=
  (if visibleP sh e.1 then
    match e.2 with
    | Kind.file => [e.1]
    | _ => rec e.1
  else []) ++ acc

/-- Fuel-indexed `get_all_files_in_directory`: every file reachable from
`dirPath` through readable directories, hidden entries (and everything
beneath them) excluded when `sh` is off; an unreadable or missing directory
contributes nothing (the Rust warn-and-return-empty recovery). -/
def getAllFilesF : Nat → Fs → Bool → Path → List Path
  | 0, _, _, _ => []
  | fuel + 1, fs, sh, dirPath =>
    match lookupKind fs dirPath with
    | some Kind.dirReadable =>
        (childrenOf fs dirPath).foldr (gafStep sh (fun q => getAllFilesF fuel fs sh q)) []
    | _ => []

/-- `get_all_files_in_directory` of `src/file_selector.rs`. -/
def getAllFilesInDirectory (fs : Fs) (sh : Bool) (dirPath : Path) : List Path :=
  getAllFilesF (maxPathLen fs + 1) fs sh dirPath

/-- The `FileSelector` state: flattened rows, cursor (`ListState`),
selected files, show-hidden flag and expanded directories.  The base path
is fixed as `[]`. -/
@[ext]
structure Selector : Type where
  items : List FileItem
  cursor : Option Nat
  selectedFiles : Finset Path
  showHidden : Bool
  expandedDirs : Finset Path
deriving DecidableEq

/-- `update_item_selections`: re-derive `is_selected` of every file row from
the selection set. -/
def updateItemSelections (sel : Finset Path) (items : List FileItem) : List FileItem :=
  items.map (fun it => if it.isDir then it else { it with isSelected := decide (it.path ∈ sel) })

/-- `refresh_items`: clear the rows, fail if the base no longer exists,
rebuild the rows from the filesystem, and on success re-derive the row
selection flags.  The Boolean is the Rust `Result`: `false` is `Err`.  On
failure the rows hold whatever the aborted rebuild produced (the Rust `self.items`
was cleared first and partially refilled). -/
def refreshItems (fs : Fs) (s : Selector) : Selector × Bool :=
  if (lookupKind fs []).isSome then
    let r := buildTree fs s.showHidden s.expandedDirs s.selectedFiles [] 0
    if r.2 then ({ s with items := updateItemSelections s.selectedFiles r.1 }, true)
    else ({ s with items := r.1 }, false)
  else ({ s with items := [] }, false)

/-- The file branch of `toggle_selection`: remove the path if selected,
insert it otherwise. -/
def toggleFilePath (p : Path) (sel : Finset Path) : Finset Path :=
  if p ∈ sel then sel.erase p else insert p sel

/-- `select_directory_files`: gather every file under the directory, then
bulk-deselect when all are already selected, bulk-select otherwise, and
refresh (the refresh error is discarded by `unwrap_or(())`). -/
def selectDirectoryFiles (fs : Fs) (s : Selector) (dirPath : Path) : Selector :=
  let files := getAllFilesInDirectory fs s.showHidden dirPath
  let allSelected := files.all (fun f => decide (f ∈ s.selectedFiles))
  let sel2 :=
    if allSelected then files.foldl (fun t p => t.erase p) s.selectedFiles
    else files.foldl (fun t p => insert p t) s.selectedFiles
  (refreshItems fs { s with selectedFiles := sel2 }).1

/-- `toggle_selection`: on a directory row delegate to
`select_directory_files`; on a file row toggle the path and refresh
(refresh error discarded). -/
def toggleSelection (fs : Fs) (s : Selector) : Selector :=
  match s.cursor with
  | none => s
  | some i =>
    if h : i < s.items.length then
      let item := s.items.get ⟨i, h⟩
      if item.isDir then selectDirectoryFiles fs s item.path
      else (refreshItems fs { s with selectedFiles := toggleFilePath item.path s.selectedFiles }).1
    else s

/-- `expand_current_directory`: if the cursor is on a collapsed directory
row, insert its path into the expanded set and refresh (refresh error
discarded). -/
def expandCurrentDirectory (fs : Fs) (s : Selector) : Selector :=
  match s.cursor with
  | none => s
  | some i =>
    if h : i < s.items.length then
      let item := s.items.get ⟨i, h⟩
      if item.isDir && !item.isExpanded then
        (refreshItems fs { s with expandedDirs := insert item.path s.expandedDirs }).1
      else s
    else s

/-- `collapse_current_directory`: if the cursor is on an expanded directory
row, remove its path from the expanded set and refresh (refresh error
discarded). -/
def collapseCurrentDirectory (fs : Fs) (s : Selector) : Selector :=
  match s.cursor with
  | none => s
  | some i =>
    if h : i < s.items.length then
      let item := s.items.get ⟨i, h⟩
      if item.isDir && item.isExpanded then
        (refreshItems fs { s with expandedDirs := s.expandedDirs.erase item.path }).1
      else s
    else s

/-- `select_all_files`: insert the path of every non-directory row, then
refresh (refresh error discarded). -/
def selectAllFiles (fs : Fs) (s : Selector) : Selector :=
  let sel2 := s.items.foldl (fun t it => if it.isDir then t else insert it.path t) s.selectedFiles
  (refreshItems fs { s with selectedFiles := sel2 }).1

/-- `deselect_all`: clear the selection and refresh (refresh error
discarded). -/
def deselectAll (fs : Fs) (s : Selector) : Selector :=
  (refreshItems fs { s with selectedFiles := ∅ }).1

/-- `move_selection_down`: advance the cursor unless at
`len().saturating_sub(1)`. -/
def moveSelectionDown (s : Selector) : Selector :=
  let i := s.cursor.getD 0
  if i < s.items.length - 1 then { s with cursor := some (i + 1) } else s

/-- `move_selection_up`: retreat the cursor unless at 0. -/
def moveSelectionUp (s : Selector) : Selector :=
  let i := s.cursor.getD 0
  if i > 0 then { s with cursor := some (i - 1) } else s

/-- The Ctrl+H handler of `run_event_loop`: flip `show_hidden` and refresh;
this is the one refresh whose error is propagated (`self.refresh_items()?`),
not discarded. -/
def toggleHiddenCmd (fs : Fs) (s : Selector) : Selector × Bool :=
  refreshItems fs { s with showHidden := !s.showHidden }

/-- `set_selections`: install a previously persisted selection verbatim
(`Vec<PathBuf>` collected into the `HashSet`) and refresh (refresh error
discarded). -/
def setSelections (fs : Fs) (s : Selector) (l : List Path) : Selector :=
  (refreshItems fs { s with selectedFiles := l.toFinset }).1

/-- `FileSelector::new`: empty state, base directory (path `[]`) expanded,
one refresh with its error discarded, cursor at row 0. -/
def newSelector (fs : Fs) : Selector :=
  let s : Selector :=
    { items := []
      cursor := none
      selectedFiles := ∅
      showHidden := false
      expandedDirs := {([] : Path)} }
  { (refreshItems fs s).1 with cursor := some 0 }

/-- The commands `run_event_loop` dispatches on key presses. -/
inductive Cmd : Type where
  | quit : Cmd
  | confirm : Cmd
  | toggleSel : Cmd
  | expand : Cmd
  | collapse : Cmd
  | selectAll : Cmd
  | deselectAll : Cmd
  | toggleHidden : Cmd
  | down : Cmd
  | up : Cmd
deriving DecidableEq

/-- Outcome of dispatching one event: keep looping with a new state, or
leave the loop returning the selected set (`q` breaks, Enter returns). -/
inductive StepOut : Type where
  | cont : Selector → StepOut
  | done : Finset Path → StepOut
deriving DecidableEq

/-- One iteration of `run_event_loop`: dispatch a command.  `Except.error`
is the `?`-propagation that makes `run_event_loop` itself return `Err` —
only the Ctrl+H refresh can produce it; every other handler discards its
refresh error with `unwrap_or(())` and the loop continues. -/
def loopStep (fs : Fs) (s : Selector) : Cmd → Except Unit StepOut
  | Cmd.quit => Except.ok (StepOut.done s.selectedFiles)
  | Cmd.confirm => Except.ok (StepOut.done s.selectedFiles)
  | Cmd.toggleSel => Except.ok (StepOut.cont (toggleSelection fs s))
  | Cmd.expand => Except.ok (StepOut.cont (expandCurrentDirectory fs s))
  | Cmd.collapse => Except.ok (StepOut.cont (collapseCurrentDirectory fs s))
  | Cmd.selectAll => Except.ok (StepOut.cont (selectAllFiles fs s))
  | Cmd.deselectAll => Except.ok (StepOut.cont (deselectAll fs s))
  | Cmd.toggleHidden =>
    match toggleHiddenCmd fs s with
    | (s2, true) => Except.ok (StepOut.cont s2)
    | (_, false) => Except.error ()
  | Cmd.down => Except.ok (StepOut.cont (moveSelectionDown s))
  | Cmd.up => Except.ok (StepOut.cont (moveSelectionUp s))

/-- Whether a dispatch stayed in the loop or returned normally (as opposed
to propagating an error out of `run_event_loop`). -/
def stepOk : Except Unit StepOut → Bool
  | Except.ok _ => true
  | Except.error _ => false

instance : DecidableEq (Except Unit StepOut) := fun a b =>
  match a, b with
  | Except.ok x, Except.ok y =>
      decidable_of_iff (x = y) ⟨fun h => congrArg Except.ok h, fun h => by injection h⟩
  | Except.error x, Except.error y => isTrue (by cases x; cases y; rfl)
  | Except.ok _, Except.error _ => isFalse (fun hc => Except.noConfusion hc)
  | Except.error _, Except.ok _ => isFalse (fun hc => Except.noConfusion hc)

/-- A state whose rows are in sync with the filesystem: refreshing is a
no-op.  Every state the controller ever exposes after a successful command
is of this shape, since every command ends in a refresh. -/
abbrev Fresh (fs : Fs) (s : Selector) : Prop := (refreshItems fs s).1 = s

/-- The selection-set invariant: no member is a directory of the current
filesystem. -/
abbrev SelInv (fs : Fs) (sel : Finset Path) : Prop :=
  ∀ p ∈ sel, isDirAt fs p = false

/-- Well-formedness of the modelled filesystem: paths are unique keys (as
they are in a real filesystem). -/
abbrev NodupKeys (fs : Fs) : Prop := (fs.map (fun e => e.1)).Nodup

/-- `p` is a file that `get_all_files_in_directory` can reach from `d`:
there is a chain of readable, hidden-filter-passing directory steps from
`d` down to the file.  Expansion state plays no role. -/
inductive ReachFile (fs : Fs) (sh : Bool) : Path → Path → Prop where
  | file {d q : Path} :
      lookupKind fs d = some Kind.dirReadable →
      lookupKind fs q = some Kind.file →
      q.length = d.length + 1 → d <+: q → visibleP sh q = true →
      ReachFile fs sh d q
  | dir {d q p : Path} :
      lookupKind fs d = some Kind.dirReadable →
      lookupKind fs q = some Kind.dirReadable →
      q.length = d.length + 1 → d <+: q → visibleP sh q = true →
      ReachFile fs sh q p →
      ReachFile fs sh d p

/-! ## Basic facts about lookups, children and fuel -/

theorem lookupKind_mem {fs : Fs} {p : Path} {k : Kind}
    (h : lookupKind fs p = some k) : (p, k) ∈ fs := by
  unfold lookupKind at h
  rcases hf : fs.find? (fun e => e.1 == p) with _ | e
  · rw [hf] at h; cases h
  · rw [hf] at h
    have he : e ∈ fs := List.mem_of_find?_eq_some hf
    have hp : e.1 = p := by
      have := List.find?_some hf
      exact beq_iff_eq.mp this
    have hk : e.2 = k := by
      simpa using h
    have : e = (p, k) := by
      cases e; simp_all
    rwa [this] at he

theorem le_foldr_max {x : Nat} {l : List Nat} (h : x ∈ l) :
    x ≤ l.foldr Nat.max 0 := by
  induction l with
  | nil => cases h
  | cons a l ih =>
    rcases List.mem_cons.mp h with rfl | h
    · exact Nat.le_max_left _ _
    · exact le_trans (ih h) (Nat.le_max_right _ _)

theorem length_le_maxPathLen {fs : Fs} {p : Path} {k : Kind}
    (h : lookupKind fs p = some k) : p.length ≤ maxPathLen fs := by
  have hm : (p, k) ∈ fs := lookupKind_mem h
  have : p.length ∈ fs.map (fun e => e.1.length) :=
    List.mem_map.mpr ⟨(p, k), hm, rfl⟩
  exact le_foldr_max this

theorem lookupKind_eq_none {fs : Fs} {p : Path}
    (h : maxPathLen fs < p.length) : lookupKind fs p = none := by
  rcases hl : lookupKind fs p with _ | k
  · rfl
  · exact absurd (length_le_maxPathLen hl) (not_le.mpr h)

theorem isPrefixOfIff : ∀ {l1 l2 : List String}, l1.isPrefixOf l2 = true ↔ l1 <+: l2 := by
  intro l1
  induction l1 with
  | nil =>
    intro l2
    simp [List.isPrefixOf]
  | cons a l ih =>
    intro l2
    cases l2 with
    | nil => simp [List.isPrefixOf]
    | cons b l2 =>
      rw [List.cons_prefix_cons]
      show (a == b && l.isPrefixOf l2) = true ↔ _
      rw [Bool.and_eq_true, beq_iff_eq, ih]

theorem mem_childrenOf {fs : Fs} {d : Path} {e : Path × Kind} :
    e ∈ childrenOf fs d ↔ e ∈ fs ∧ e.1.length = d.length + 1 ∧ d <+: e.1 := by
  unfold childrenOf
  rw [List.mem_filter]
  constructor
  · rintro ⟨hm, hb⟩
    simp only [Bool.and_eq_true, beq_iff_eq] at hb
    exact ⟨hm, hb.1, isPrefixOfIff.mp hb.2⟩
  · rintro ⟨hm, h1, h2⟩
    refine ⟨hm, ?_⟩
    simp only [Bool.and_eq_true, beq_iff_eq]
    exact ⟨h1, isPrefixOfIff.mpr h2⟩

theorem mem_sortedChildren {fs : Fs} {sh : Bool} {d : Path} {e : Path × Kind} :
    e ∈ sortedChildren fs sh d ↔ e ∈ childrenOf fs d ∧ visibleP sh e.1 = true := by
  unfold sortedChildren
  rw [(List.perm_insertionSort entLE _).mem_iff, List.mem_filter]

theorem sortedChildren_sorted (fs : Fs) (sh : Bool) (d : Path) :
    List.Sorted entLE (sortedChildren fs sh d) :=
  List.sorted_insertionSort entLE _

theorem foldr_rowStep_congr {exp sel : Finset Path} {depth : Nat}
    {rec1 rec2 : Path → List FileItem × Bool} {l : List (Path × Kind)}
    (h : ∀ e ∈ l, rec1 e.1 = rec2 e.1) :
    l.foldr (rowStep exp sel depth rec1) ([], true)
      = l.foldr (rowStep exp sel depth rec2) ([], true) := by
  induction l with
  | nil => rfl
  | cons a l ih =>
    have ha : rec1 a.1 = rec2 a.1 := h a (List.mem_cons_self a l)
    have ht : l.foldr (rowStep exp sel depth rec1) ([], true)
        = l.foldr (rowStep exp sel depth rec2) ([], true) :=
      ih (fun e he => h e (List.mem_cons_of_mem a he))
    simp only [List.foldr_cons, ht, rowStep, ha]

theorem foldr_gafStep_congr {sh : Bool} {rec1 rec2 : Path → List Path}
    {l : List (Path × Kind)} (h : ∀ e ∈ l, rec1 e.1 = rec2 e.1) :
    l.foldr (gafStep sh rec1) [] = l.foldr (gafStep sh rec2) [] := by
  induction l with
  | nil => rfl
  | cons a l ih =>
    have ha : rec1 a.1 = rec2 a.1 := h a (List.mem_cons_self a l)
    have ht : l.foldr (gafStep sh rec1) [] = l.foldr (gafStep sh rec2) [] :=
      ih (fun e he => h e (List.mem_cons_of_mem a he))
    simp only [List.foldr_cons, ht, gafStep, ha]

theorem sortedChildren_length_bound {fs : Fs} {sh : Bool} {d : Path}
    {e : Path × Kind} (he : e ∈ sortedChildren fs sh d) :
    e.1.length = d.length + 1 ∧ e.1.length ≤ maxPathLen fs := by
  rcases mem_sortedChildren.mp he with ⟨hc, _⟩
  rcases mem_childrenOf.mp hc with ⟨hm, hl, _⟩
  refine ⟨hl, ?_⟩
  have : e.1.length ∈ fs.map (fun x => x.1.length) :=
    List.mem_map.mpr ⟨e, hm, rfl⟩
  exact le_foldr_max this

theorem buildTreeF_fuel_congr :
    ∀ (fuel1 fuel2 : Nat) (fs : Fs) (sh : Bool) (exp sel : Finset Path)
      (dirPath : Path) (depth : Nat),
      maxPathLen fs < fuel1 + dirPath.length →
      maxPathLen fs < fuel2 + dirPath.length →
      buildTreeF fuel1 fs sh exp sel dirPath depth
        = buildTreeF fuel2 fs sh exp sel dirPath depth := by
  intro fuel1
  induction fuel1 with
  | zero =>
    intro fuel2 fs sh exp sel dirPath depth h1 _
    have hn : lookupKind fs dirPath = none := lookupKind_eq_none (by omega)
    cases fuel2 with
    | zero => rfl
    | succ g => simp [buildTreeF, hn]
  | succ f ih =>
    intro fuel2 fs sh exp sel dirPath depth h1 h2
    cases fuel2 with
    | zero =>
      have hn : lookupKind fs dirPath = none := lookupKind_eq_none (by omega)
      simp [buildTreeF, hn]
    | succ g =>
      simp only [buildTreeF]
      rcases hl : lookupKind fs dirPath with _ | k
      · rfl
      · cases k with
        | file => rfl
        | dirUnreadable => rfl
        | dirReadable =>
          refine foldr_rowStep_congr ?_
          intro e he
          rcases sortedChildren_length_bound he with ⟨hlen, hmax⟩
          exact ih g fs sh exp sel e.1 (depth + 1) (by omega) (by omega)

theorem getAllFilesF_fuel_congr :
    ∀ (fuel1 fuel2 : Nat) (fs : Fs) (sh : Bool) (dirPath : Path),
      maxPathLen fs < fuel1 + dirPath.length →
      maxPathLen fs < fuel2 + dirPath.length →
      getAllFilesF fuel1 fs sh dirPath = getAllFilesF fuel2 fs sh dirPath := by
  intro fuel1
  induction fuel1 with
  | zero =>
    intro fuel2 fs sh dirPath h1 _
    have hn : lookupKind fs dirPath = none := lookupKind_eq_none (by omega)
    cases fuel2 with
    | zero => rfl
    | succ g => simp [getAllFilesF, hn]
  | succ f ih =>
    intro fuel2 fs sh dirPath h1 h2
    cases fuel2 with
    | zero =>
      have hn : lookupKind fs dirPath = none := lookupKind_eq_none (by omega)
      simp [getAllFilesF, hn]
    | succ g =>
      simp only [getAllFilesF]
      rcases hl : lookupKind fs dirPath with _ | k
      · rfl
      · cases k with
        | file => rfl
        | dirUnreadable => rfl
        | dirReadable =>
          refine foldr_gafStep_congr ?_
          intro e he
          rcases mem_childrenOf.mp he with ⟨hm, hlen, _⟩
          have hmax : e.1.length ≤ maxPathLen fs :=
            le_foldr_max (List.mem_map.mpr ⟨e, hm, rfl⟩)
          exact ih g fs sh e.1 (by omega) (by omega)

/-- The per-directory row list of `build_tree`, with the wrapper `buildTree`
inside: `buildTree` of a readable directory unfolds to this
(`buildTree_readable`). -/
def buildRows (fs : Fs) (sh : Bool) (exp sel : Finset Path)
    (depth : Nat) (l : List (Path × Kind)) : List FileItem × Bool :=
  l.foldr (rowStep exp sel depth (fun q => buildTree fs sh exp sel q (depth + 1))) ([], true)

theorem buildTree_readable {fs : Fs} {sh : Bool} {exp sel : Finset Path}
    {dirPath : Path} {depth : Nat}
    (h : lookupKind fs dirPath = some Kind.dirReadable) :
    buildTree fs sh exp sel dirPath depth
      = buildRows fs sh exp sel depth (sortedChildren fs sh dirPath) := by
  unfold buildTree buildRows
  simp only [buildTreeF, h]
  refine foldr_rowStep_congr ?_
  intro e he
  rcases sortedChildren_length_bound he with ⟨hlen, hmax⟩
  exact buildTreeF_fuel_congr (maxPathLen fs) (maxPathLen fs + 1) fs sh exp sel e.1
    (depth + 1) (by omega) (by omega)

theorem buildTree_notReadable {fs : Fs} {sh : Bool} {exp sel : Finset Path}
    {dirPath : Path} {depth : Nat}
    (h : lookupKind fs dirPath ≠ some Kind.dirReadable) :
    buildTree fs sh exp sel dirPath depth = ([], false) := by
  unfold buildTree
  simp only [buildTreeF]

theorem getAllFiles_readable {fs : Fs} {sh : Bool} {dirPath : Path}
    (h : lookupKind fs dirPath = some Kind.dirReadable) :
    getAllFilesInDirectory fs sh dirPath
      = (childrenOf fs dirPath).foldr
          (gafStep sh (fun q => getAllFilesInDirectory fs sh q)) [] := by
  unfold getAllFilesInDirectory
  simp only [getAllFilesF, h]
  refine foldr_gafStep_congr ?_
  intro e he
  rcases mem_childrenOf.mp he with ⟨hm, hlen, _⟩
  have hmax : e.1.length ≤ maxPathLen fs :=
    le_foldr_max (List.mem_map.mpr ⟨e, hm, rfl⟩)
  exact getAllFilesF_fuel_congr (maxPathLen fs) (maxPathLen fs + 1) fs sh e.1
    (by omega) (by omega)

theorem getAllFiles_notReadable {fs : Fs} {sh : Bool} {dirPath : Path}
    (h : lookupKind fs dirPath ≠ some Kind.dirReadable) :
    getAllFilesInDirectory fs sh dirPath = [] := by
  unfold getAllFilesInDirectory
  simp only [getAllFilesF]

/-! ## Structure of the row fold -/

theorem rowStep_eq (exp sel : Finset Path) (depth : Nat)
    (rec : Path → List FileItem × Bool) (e : Path × Kind)
    (acc : List FileItem × Bool) :
    rowStep exp sel depth rec e acc
      = if kindIsDir e.2 && decide (e.1 ∈ exp) then
          match rec e.1 with
          | (sub, false) => (childRow exp sel depth e :: sub, false)
          | (sub, true) => (childRow exp sel depth e :: sub ++ acc.1, acc.2)
        else (childRow exp sel depth e :: acc.1, acc.2) := rfl

theorem mem_foldr_rowStep {exp sel : Finset Path} {depth : Nat}
    {rec : Path → List FileItem × Bool} {l : List (Path × Kind)} {r : FileItem}
    (h : r ∈ (l.foldr (rowStep exp sel depth rec) ([], true)).1) :
    ∃ e ∈ l, r = childRow exp sel depth e ∨
      (kindIsDir e.2 = true ∧ e.1 ∈ exp ∧ r ∈ (rec e.1).1) := by
  induction l with
  | nil => cases h
  | cons a l ih =>
    rw [List.foldr_cons, rowStep_eq] at h
    by_cases hg : (kindIsDir a.2 && decide (a.1 ∈ exp)) = true
    · rw [if_pos hg] at h
      have hg2 := hg
      simp only [Bool.and_eq_true, decide_eq_true_eq] at hg2
      rcases hrec : rec a.1 with ⟨sub, ok⟩
      rw [hrec] at h
      cases ok with
      | false =>
        rcases List.mem_cons.mp h with rfl | h
        · exact ⟨a, List.mem_cons_self a l, Or.inl rfl⟩
        · exact ⟨a, List.mem_cons_self a l, Or.inr ⟨hg2.1, hg2.2, by rw [hrec]; exact h⟩⟩
      | true =>
        rcases List.mem_cons.mp h with rfl | h
        · exact ⟨a, List.mem_cons_self a l, Or.inl rfl⟩
        · rcases List.mem_append.mp h with h | h
          · exact ⟨a, List.mem_cons_self a l, Or.inr ⟨hg2.1, hg2.2, by rw [hrec]; exact h⟩⟩
          · rcases ih h with ⟨e, he, hc⟩
            exact ⟨e, List.mem_cons_of_mem a he, hc⟩
    · rw [if_neg hg] at h
      rcases List.mem_cons.mp h with rfl | h
      · exact ⟨a, List.mem_cons_self a l, Or.inl rfl⟩
      · rcases ih h with ⟨e, he, hc⟩
        exact ⟨e, List.mem_cons_of_mem a he, hc⟩

theorem foldr_rowStep_flatten {exp sel : Finset Path} {depth : Nat}
    {rec : Path → List FileItem × Bool} {l : List (Path × Kind)}
    (h : (l.foldr (rowStep exp sel depth rec) ([], true)).2 = true) :
    (l.foldr (rowStep exp sel depth rec) ([], true)).1
      = (l.map (fun e => childRow exp sel depth e ::
          (if kindIsDir e.2 && decide (e.1 ∈ exp) then (rec e.1).1 else []))).flatten := by
  induction l with
  | nil => rfl
  | cons a l ih =>
    rw [List.foldr_cons, rowStep_eq] at h ⊢
    rw [List.map_cons, List.flatten_cons]
    by_cases hg : (kindIsDir a.2 && decide (a.1 ∈ exp)) = true
    · rw [if_pos hg] at h ⊢
      rcases hrec : rec a.1 with ⟨sub, ok⟩
      rw [hrec] at h
      cases ok with
      | false => simp at h
      | true =>
        dsimp only at h ⊢
        rw [if_pos hg]
        simp only [List.cons_append]
        rw [ih h]
    · rw [if_neg hg] at h ⊢
      rw [if_neg hg]
      simp only [List.cons_append, List.nil_append]
      rw [ih h]

theorem foldr_rowStep_false {exp sel : Finset Path} {depth : Nat}
    {rec : Path → List FileItem × Bool} {l : List (Path × Kind)} {e : Path × Kind}
    (he : e ∈ l) (hd : kindIsDir e.2 = true) (hx : e.1 ∈ exp)
    (hrec : (rec e.1).2 = false) :
    (l.foldr (rowStep exp sel depth rec) ([], true)).2 = false := by
  induction l with
  | nil => cases he
  | cons a l ih =>
    rw [List.foldr_cons, rowStep_eq]
    rcases List.mem_cons.mp he with rfl | he2
    · have hg : (kindIsDir e.2 && decide (e.1 ∈ exp)) = true := by
        simp only [Bool.and_eq_true, decide_eq_true_eq]; exact ⟨hd, hx⟩
      rw [if_pos hg]
      rcases hr : rec e.1 with ⟨sub, ok⟩
      rw [hr] at hrec
      cases ok with
      | false => rfl
      | true => cases hrec
    · by_cases hg : (kindIsDir a.2 && decide (a.1 ∈ exp)) = true
      · rw [if_pos hg]
        rcases hr : rec a.1 with ⟨sub, ok⟩
        cases ok with
        | false => rfl
        | true => exact ih he2
      · rw [if_neg hg]
        exact ih he2

/-- The invariants of every row a directory materialization emits: the row
path strictly extends the directory path, its depth advances in lockstep with
the path length, and every strictly intermediate ancestor of the row is an
expanded directory path. -/
def RowSpec (exp : Finset Path) (dirPath : Path) (depth : Nat) (r : FileItem) : Prop :=
  dirPath <+: r.path ∧ dirPath ≠ r.path
    ∧ r.depth + dirPath.length + 1 = depth + r.path.length
    ∧ ∀ q : Path, dirPath <+: q → q <+: r.path → q ≠ dirPath → q ≠ r.path → q ∈ exp

theorem buildTreeF_rowSpec :
    ∀ (fuel : Nat) (fs : Fs) (sh : Bool) (exp sel : Finset Path)
      (dirPath : Path) (depth : Nat) (r : FileItem),
      r ∈ (buildTreeF fuel fs sh exp sel dirPath depth).1 →
      RowSpec exp dirPath depth r := by
  intro fuel
  induction fuel with
  | zero => intro fs sh exp sel dirPath depth r h; cases h
  | succ f ih =>
    intro fs sh exp sel dirPath depth r h
    simp only [buildTreeF] at h
    rcases hl : lookupKind fs dirPath with _ | k
    · rw [hl] at h; cases h
    · rw [hl] at h
      cases k with
      | file => cases h
      | dirUnreadable => cases h
      | dirReadable =>
        rcases mem_foldr_rowStep h with ⟨e, he, hc⟩
        rcases mem_sortedChildren.mp he with ⟨hch, _⟩
        rcases mem_childrenOf.mp hch with ⟨_, hlen, hpre⟩
        rcases hc with rfl | ⟨hd, hx, hr⟩
        · refine ⟨hpre, ?_, ?_, ?_⟩
          · intro hq
            have : dirPath.length = e.1.length := by rw [hq]; rfl
            omega
          · show depth + dirPath.length + 1 = depth + e.1.length
            omega
          · intro q h1 h2 h3 h4
            exfalso
            have hq1 : dirPath.length < q.length := by
              rcases Nat.lt_or_ge dirPath.length q.length with h5 | h5
              · exact h5
              · exact absurd (h1.eq_of_length (le_antisymm h1.length_le h5)).symm h3
            have hq2 : q.length < e.1.length := by
              rcases Nat.lt_or_ge q.length e.1.length with h5 | h5
              · exact h5
              · exact absurd (h2.eq_of_length (le_antisymm h2.length_le h5)) h4
            omega
        · have hspec := ih fs sh exp sel e.1 (depth + 1) r hr
          rcases hspec with ⟨hp, hne, hdep, hq⟩
          have hlt : e.1.length < r.path.length := by
            rcases Nat.lt_or_ge e.1.length r.path.length with h2 | h2
            · exact h2
            · exact absurd (hp.eq_of_length (le_antisymm hp.length_le h2)) hne
          refine ⟨hpre.trans hp, ?_, by omega, ?_⟩
          · intro hcontra
            have : dirPath.length = r.path.length := by rw [hcontra]
            omega
          · intro q h1 h2 h3 h4
            by_cases hqe : q = e.1
            · exact hqe ▸ hx
            · rcases Nat.lt_or_ge e.1.length q.length with h5 | h5
              · have he1q : e.1 <+: q :=
                  List.prefix_of_prefix_length_le hp h2 (Nat.le_of_lt h5)
                exact hq q he1q h2 (fun hc => hqe (hc ▸ rfl)) h4
              · have hqe1 : q <+: e.1 :=
                  List.prefix_of_prefix_length_le h2 hp h5
                have hql : dirPath.length < q.length := by
                  rcases Nat.lt_or_ge dirPath.length q.length with h6 | h6
                  · exact h6
                  · exact absurd (h1.eq_of_length (le_antisymm h1.length_le h6)).symm h3
                have hqlen : q.length = e.1.length := by
                  have := hqe1.length_le
                  omega
                exact absurd (hqe1.eq_of_length hqlen) hqe

theorem buildTree_rowSpec {fs : Fs} {sh : Bool} {exp sel : Finset Path}
    {dirPath : Path} {depth : Nat} {r : FileItem}
    (h : r ∈ (buildTree fs sh exp sel dirPath depth).1) :
    RowSpec exp dirPath depth r :=
  buildTreeF_rowSpec (maxPathLen fs + 1) fs sh exp sel dirPath depth r h

/-! ## Refresh decomposition and set-fold lemmas -/

/-- The row list a refresh produces, as a function of the refresh-relevant
state components only. -/
def rebuiltItems (fs : Fs) (sh : Bool) (exp sel : Finset Path) : List FileItem :=
  if (lookupKind fs []).isSome then
    let r := buildTree fs sh exp sel [] 0
    if r.2 then updateItemSelections sel r.1 else r.1
  else []

/-- Whether a refresh succeeds, as a function of the refresh-relevant state
components only. -/
def rebuildOk (fs : Fs) (sh : Bool) (exp sel : Finset Path) : Bool :=
  (lookupKind fs []).isSome && (buildTree fs sh exp sel [] 0).2

theorem refreshItems_eq (fs : Fs) (s : Selector) :
    refreshItems fs s =
      ({ s with items := rebuiltItems fs s.showHidden s.expandedDirs s.selectedFiles },
        rebuildOk fs s.showHidden s.expandedDirs s.selectedFiles) := by
  unfold refreshItems rebuiltItems rebuildOk
  by_cases h : (lookupKind fs []).isSome = true
  · rw [if_pos h, if_pos h]
    by_cases h2 : (buildTree fs s.showHidden s.expandedDirs s.selectedFiles [] 0).2 = true
    · rw [if_pos h2, if_pos h2, h, h2]
      rfl
    · rw [if_neg h2, if_neg h2, h]
      simp only [Bool.true_and]
      rw [Bool.eq_false_iff.mpr h2]
  · rw [if_neg h, if_neg h, Bool.eq_false_iff.mpr h]
    simp only [Bool.false_and]

theorem mem_foldl_erase {l : List Path} {sel : Finset Path} {x : Path} :
    x ∈ l.foldl (fun t p => t.erase p) sel ↔ x ∈ sel ∧ x ∉ l := by
  induction l generalizing sel with
  | nil => simp
  | cons a l ih =>
    rw [List.foldl_cons, ih, Finset.mem_erase, List.mem_cons]
    constructor
    · rintro ⟨⟨h1, h2⟩, h3⟩
      exact ⟨h2, by rintro (rfl | hc) <;> [exact h1 rfl; exact h3 hc]⟩
    · rintro ⟨h1, h2⟩
      exact ⟨⟨fun hc => h2 (Or.inl hc), h1⟩, fun hc => h2 (Or.inr hc)⟩

theorem mem_foldl_insert {l : List Path} {sel : Finset Path} {x : Path} :
    x ∈ l.foldl (fun t p => insert p t) sel ↔ x ∈ sel ∨ x ∈ l := by
  induction l generalizing sel with
  | nil => simp
  | cons a l ih =>
    rw [List.foldl_cons, ih, Finset.mem_insert, List.mem_cons]
    tauto

/-! ## Concrete filesystem fixtures -/

/-- The scenario filesystem: the base holds directory `a` (containing
`x.txt` and `y.txt`) and file `b.txt`. -/
def fsSmall : Fs :=
  [([], Kind.dirReadable),
   (["a"], Kind.dirReadable),
   (["a", "x.txt"], Kind.file),
   (["a", "y.txt"], Kind.file),
   (["b.txt"], Kind.file)]

/-- A base directory with three hidden files and one visible file. -/
def fsHidden : Fs :=
  [([], Kind.dirReadable),
   ([".a"], Kind.file),
   ([".b"], Kind.file),
   ([".c"], Kind.file),
   (["d"], Kind.file)]

/-- A readable base holding an unreadable subdirectory `a` and a file `b`. -/
def fsBlocked : Fs :=
  [([], Kind.dirReadable),
   (["a"], Kind.dirUnreadable),
   (["b"], Kind.file)]

/-- A base holding a single (empty) subdirectory `a`. -/
def fsDirOnly : Fs :=
  [([], Kind.dirReadable),
   (["a"], Kind.dirReadable)]

/-! ## Claims -/

/-- C8: for every file path and every selection set, toggling that file
twice in succession returns the selection set to exactly its original state
(the file branch of `toggle_selection`). -/
theorem toggleFilePath_involutive (p : Path) (sel : Finset Path) :
    toggleFilePath p (toggleFilePath p sel) = sel := by
  unfold toggleFilePath
  by_cases h : p ∈ sel
  · rw [if_pos h, if_neg (Finset.not_mem_erase p sel), Finset.insert_erase h]
  · rw [if_neg h, if_pos (Finset.mem_insert_self p sel), Finset.erase_insert h]

/-- C9: toggling show-hidden on and then off again (filesystem, expanded
set and selection unchanged in between) restores the entire selector state
— in particular exactly the row list from before the first toggle, and the
unchanged cursor index addresses the same row, hence the same path — for
any state whose rows are in sync with the filesystem. -/
theorem showHidden_double_toggle_restores (fs : Fs) (s : Selector)
    (hf : Fresh fs s) :
    (toggleHiddenCmd fs (toggleHiddenCmd fs s).1).1 = s := by
  have hf2 : (refreshItems fs s).1 = s := hf
  rw [refreshItems_eq] at hf2
  simp only at hf2
  simp only [toggleHiddenCmd, refreshItems_eq, Bool.not_not]
  exact hf2

/-- Witness for C9 at a concrete state produced by the constructor. -/
theorem showHidden_double_toggle_restores_witness :
    Fresh fsSmall (newSelector fsSmall) ∧
      (toggleHiddenCmd fsSmall (toggleHiddenCmd fsSmall (newSelector fsSmall)).1).1
        = newSelector fsSmall :=
  ⟨by decide, showHidden_double_toggle_restores fsSmall (newSelector fsSmall) (by decide)⟩

/-- C5: in the scenario filesystem (base holding `a/` with `x.txt`, `y.txt`,
and `b.txt`), the initial rows are `a/` (collapsed) then `b.txt`; the expand
command on `a/` yields rows `a/` (expanded), `x.txt`, `y.txt`, `b.txt` in
order; toggle-select on `a/` then selects exactly
`{a/x.txt, a/y.txt}`; and confirming returns exactly that set. -/
theorem scenario_expand_select_confirm :
    (newSelector fsSmall).items =
      [{ path := ["a"], name := "a", isDir := true, isSelected := false,
         isExpanded := false, depth := 0 },
       { path := ["b.txt"], name := "b.txt", isDir := false, isSelected := false,
         isExpanded := false, depth := 0 }]
    ∧ (expandCurrentDirectory fsSmall (newSelector fsSmall)).items =
      [{ path := ["a"], name := "a", isDir := true, isSelected := false,
         isExpanded := true, depth := 0 },
       { path := ["a", "x.txt"], name := "x.txt", isDir := false, isSelected := false,
         isExpanded := false, depth := 1 },
       { path := ["a", "y.txt"], name := "y.txt", isDir := false, isSelected := false,
         isExpanded := false, depth := 1 },
       { path := ["b.txt"], name := "b.txt", isDir := false, isSelected := false,
         isExpanded := false, depth := 0 }]
    ∧ (toggleSelection fsSmall
         (expandCurrentDirectory fsSmall (newSelector fsSmall))).selectedFiles =
      {["a", "x.txt"], ["a", "y.txt"]}
    ∧ loopStep fsSmall
        (toggleSelection fsSmall (expandCurrentDirectory fsSmall (newSelector fsSmall)))
        Cmd.confirm
      = Except.ok (StepOut.done {["a", "x.txt"], ["a", "y.txt"]}) := by
  refine ⟨by decide, by decide, by decide, ?_⟩
  have h3 : (toggleSelection fsSmall
      (expandCurrentDirectory fsSmall (newSelector fsSmall))).selectedFiles =
      {["a", "x.txt"], ["a", "y.txt"]} := by decide
  show Except.ok (StepOut.done (toggleSelection fsSmall
    (expandCurrentDirectory fsSmall (newSelector fsSmall))).selectedFiles) = _
  rw [h3]

/-- C2 counterexample: with show-hidden on, move the cursor to the fourth
row, then toggle hidden off.  The toggle-hidden command completes with one
row but leaves the cursor at index 3: no refresh re-clamps the cursor into
`[0, rows.len()-1]`. -/
theorem cursor_not_clamped_counterexample :
    ((toggleHiddenCmd fsHidden
        (moveSelectionDown (moveSelectionDown (moveSelectionDown
          (toggleHiddenCmd fsHidden (newSelector fsHidden)).1)))).1).items.length = 1
    ∧ ((toggleHiddenCmd fsHidden
        (moveSelectionDown (moveSelectionDown (moveSelectionDown
          (toggleHiddenCmd fsHidden (newSelector fsHidden)).1)))).1).cursor = some 3 :=
  ⟨by decide, by decide⟩

/-- C2 as amended: refresh does not re-clamp the cursor, so after a refresh
that shrinks the row list the cursor index can exceed `rows.len()-1`
(see the counterexample); no command that assumes a valid row crashes,
because each such command first checks the cursor against `items.len()` and
is a no-op when the index is out of range (as is move-down). -/
theorem out_of_range_cursor_commands_noop (fs : Fs) (s : Selector) (i : Nat)
    (hc : s.cursor = some i) (hi : s.items.length ≤ i) :
    toggleSelection fs s = s ∧ expandCurrentDirectory fs s = s
    ∧ collapseCurrentDirectory fs s = s ∧ moveSelectionDown s = s := by
  have hlt : ¬ i < s.items.length := not_lt.mpr hi
  refine ⟨?_, ?_, ?_, ?_⟩
  · unfold toggleSelection
    rw [hc]
    dsimp only
    rw [dif_neg hlt]
  · unfold expandCurrentDirectory
    rw [hc]
    dsimp only
    rw [dif_neg hlt]
  · unfold collapseCurrentDirectory
    rw [hc]
    dsimp only
    rw [dif_neg hlt]
  · unfold moveSelectionDown
    rw [hc]
    simp only [Option.getD_some]
    rw [if_neg (by omega : ¬ i < s.items.length - 1)]

/-- A state whose cursor index 5 exceeds its (empty) row list. -/
def sOutOfRange : Selector :=
  { items := []
    cursor := some 5
    selectedFiles := ∅
    showHidden := false
    expandedDirs := ∅ }

/-- Witness for the amended C2 at a concrete out-of-range state. -/
theorem out_of_range_cursor_commands_noop_witness :
    sOutOfRange.cursor = some 5 ∧ sOutOfRange.items.length ≤ 5
    ∧ (toggleSelection fsSmall sOutOfRange = sOutOfRange
        ∧ expandCurrentDirectory fsSmall sOutOfRange = sOutOfRange
        ∧ collapseCurrentDirectory fsSmall sOutOfRange = sOutOfRange
        ∧ moveSelectionDown sOutOfRange = sOutOfRange) :=
  ⟨rfl, by decide, out_of_range_cursor_commands_noop fsSmall sOutOfRange 5 rfl (by decide)⟩

/-- The filesystem after the base directory was deleted mid-session:
nothing exists any more, every refresh fails. -/
def fsGone : Fs := []

/-- A stale state whose cursor sits on a collapsed directory row `a`
(materialized before the base directory vanished). -/
def sDirRow : Selector :=
  { items := [{ path := ["a"], name := "a", isDir := true, isSelected := false,
                isExpanded := false, depth := 0 }]
    cursor := some 0
    selectedFiles := ∅
    showHidden := false
    expandedDirs := {([] : Path)} }

/-- C6 counterexample: with the base directory deleted, the refresh run by
the expand command fails, yet the command reports no error — the dispatch
returns `ok` and the loop continues with the silently emptied row list; the
same failing refresh under Ctrl+H instead propagates and terminates the
event loop with an error. -/
theorem refresh_error_swallowed_counterexample :
    (refreshItems fsGone
        { sDirRow with expandedDirs := insert ["a"] sDirRow.expandedDirs }).2 = false
    ∧ loopStep fsGone sDirRow Cmd.expand
        = Except.ok (StepOut.cont
            { sDirRow with expandedDirs := insert ["a"] sDirRow.expandedDirs, items := [] })
    ∧ loopStep fsGone sDirRow Cmd.toggleHidden = Except.error () :=
  ⟨by decide, by decide, by decide⟩

/-- C6 as amended: a materialization failure during refresh is silently
discarded (`unwrap_or(())`) by the toggle-select, expand, collapse,
select-all and deselect-all handlers, whose dispatch always stays in the
loop; only the show-hidden toggle propagates the refresh result, and it
makes the event loop return an error exactly when that refresh fails. -/
theorem refresh_error_routing (fs : Fs) (s : Selector) :
    stepOk (loopStep fs s Cmd.toggleSel) = true
    ∧ stepOk (loopStep fs s Cmd.expand) = true
    ∧ stepOk (loopStep fs s Cmd.collapse) = true
    ∧ stepOk (loopStep fs s Cmd.selectAll) = true
    ∧ stepOk (loopStep fs s Cmd.deselectAll) = true
    ∧ stepOk (loopStep fs s Cmd.down) = true
    ∧ stepOk (loopStep fs s Cmd.up) = true
    ∧ ((loopStep fs s Cmd.toggleHidden = Except.error ())
        ↔ rebuildOk fs (!s.showHidden) s.expandedDirs s.selectedFiles = false) := by
  refine ⟨rfl, rfl, rfl, rfl, rfl, rfl, rfl, ?_⟩
  unfold loopStep toggleHiddenCmd
  rw [refreshItems_eq]
  dsimp only
  cases hb : rebuildOk fs (!s.showHidden) s.expandedDirs s.selectedFiles with
  | false => simp
  | true => simp

/-- C1 counterexample: the base directory is readable, but because the
expanded subdirectory `a` cannot be listed, the whole materialization (and
hence the refresh) fails — the subtree is not skipped with a warning. -/
theorem subtree_error_aborts_counterexample :
    lookupKind fsBlocked [] = some Kind.dirReadable
    ∧ (buildTree fsBlocked false {[], ["a"]} ∅ [] 0).2 = false
    ∧ (refreshItems fsBlocked
        { items := []
          cursor := some 0
          selectedFiles := ∅
          showHidden := false
          expandedDirs := {[], ["a"]} }).2 = false :=
  ⟨by decide, by decide, by decide⟩

/-- C1 as amended: a read failure on an expanded, visible subdirectory
during recursive descent is not recovered locally — the error propagates
and the whole materialization fails even though the traversal root is
readable; the warn-and-skip recovery exists only in the directory-toggle
enumeration `get_all_files_in_directory`, which yields no files for an
unreadable directory and carries no error at all. -/
theorem subtree_error_propagates (fs : Fs) (sh : Bool) (exp sel : Finset Path)
    (d q : Path) (depth : Nat)
    (hd : lookupKind fs d = some Kind.dirReadable)
    (hq : lookupKind fs q = some Kind.dirUnreadable)
    (hlen : q.length = d.length + 1) (hpre : d <+: q)
    (hvis : visibleP sh q = true) (hexp : q ∈ exp) :
    (buildTree fs sh exp sel d depth).2 = false
    ∧ getAllFilesInDirectory fs sh q = [] := by
  constructor
  · rw [buildTree_readable hd]
    unfold buildRows
    refine foldr_rowStep_false (e := (q, Kind.dirUnreadable)) ?_ rfl hexp ?_
    · exact mem_sortedChildren.mpr
        ⟨mem_childrenOf.mpr ⟨lookupKind_mem hq, hlen, hpre⟩, hvis⟩
    · rw [buildTree_notReadable (by rw [hq]; intro hcontra; cases hcontra)]
  · exact getAllFiles_notReadable (by rw [hq]; intro hcontra; cases hcontra)

/-- Witness for the amended C1 on the blocked fixture. -/
theorem subtree_error_propagates_witness :
    lookupKind fsBlocked [] = some Kind.dirReadable
    ∧ lookupKind fsBlocked ["a"] = some Kind.dirUnreadable
    ∧ (["a"] : Path).length = ([] : Path).length + 1
    ∧ ([] : Path) <+: ["a"]
    ∧ visibleP false ["a"] = true
    ∧ (["a"] : Path) ∈ ({[], ["a"]} : Finset Path)
    ∧ (buildTree fsBlocked false {[], ["a"]} ∅ [] 0).2 = false
    ∧ getAllFilesInDirectory fsBlocked false ["a"] = [] :=
  ⟨by decide, by decide, by decide, ⟨["a"], rfl⟩, by decide, by decide,
    subtree_error_propagates fsBlocked false {[], ["a"]} ∅ [] ["a"] 0
      (by decide) (by decide) (by decide) ⟨["a"], rfl⟩ (by decide) (by decide)⟩

theorem selectDirectoryFiles_showHidden (fs : Fs) (s : Selector) (d : Path) :
    (selectDirectoryFiles fs s d).showHidden = s.showHidden := by
  unfold selectDirectoryFiles
  dsimp only
  rw [refreshItems_eq]

theorem mem_selectDirectoryFiles (fs : Fs) (s : Selector) (d : Path) (x : Path) :
    x ∈ (selectDirectoryFiles fs s d).selectedFiles ↔
      (if (getAllFilesInDirectory fs s.showHidden d).all
            (fun f => decide (f ∈ s.selectedFiles))
       then x ∈ s.selectedFiles ∧ x ∉ getAllFilesInDirectory fs s.showHidden d
       else x ∈ s.selectedFiles ∨ x ∈ getAllFilesInDirectory fs s.showHidden d) := by
  unfold selectDirectoryFiles
  dsimp only
  rw [refreshItems_eq]
  dsimp only
  by_cases hall : (getAllFilesInDirectory fs s.showHidden d).all
      (fun f => decide (f ∈ s.selectedFiles)) = true
  · rw [if_pos hall, if_pos hall]
    exact mem_foldl_erase
  · rw [if_neg hall, if_neg hall]
    exact mem_foldl_insert

/-- C4: directory toggle is symmetric.  If the file set computed for `d` is
already a subset of the selection, toggle-select on `d` removes exactly that
set; and (for an unchanged filesystem) a second toggle-select on `d`
deselects everything the first one selected. -/
theorem directory_toggle_symmetric (fs : Fs) (s : Selector) (d : Path) :
    ((∀ p ∈ getAllFilesInDirectory fs s.showHidden d, p ∈ s.selectedFiles) →
      (selectDirectoryFiles fs s d).selectedFiles
        = s.selectedFiles \ (getAllFilesInDirectory fs s.showHidden d).toFinset)
    ∧ ∀ p ∈ (selectDirectoryFiles fs s d).selectedFiles,
        p ∉ s.selectedFiles →
        p ∉ (selectDirectoryFiles fs (selectDirectoryFiles fs s d) d).selectedFiles := by
  constructor
  · intro hsub
    have hall : (getAllFilesInDirectory fs s.showHidden d).all
        (fun f => decide (f ∈ s.selectedFiles)) = true := by
      rw [List.all_eq_true]
      intro p hp
      exact decide_eq_true (hsub p hp)
    ext x
    rw [mem_selectDirectoryFiles, if_pos hall, Finset.mem_sdiff, List.mem_toFinset]
  · intro p hp1 hp0
    have hrw := mem_selectDirectoryFiles fs s d p
    by_cases hall : (getAllFilesInDirectory fs s.showHidden d).all
        (fun f => decide (f ∈ s.selectedFiles)) = true
    · rw [hrw, if_pos hall] at hp1
      exact absurd hp1.1 hp0
    · rw [hrw, if_neg hall] at hp1
      have hpF : p ∈ getAllFilesInDirectory fs s.showHidden d := by
        rcases hp1 with h | h
        · exact absurd h hp0
        · exact h
      intro hp2
      have hsh := selectDirectoryFiles_showHidden fs s d
      rw [mem_selectDirectoryFiles, hsh] at hp2
      have hall2 : (getAllFilesInDirectory fs s.showHidden d).all
          (fun f => decide (f ∈ (selectDirectoryFiles fs s d).selectedFiles)) = true := by
        rw [List.all_eq_true]
        intro q hq
        refine decide_eq_true ?_
        rw [mem_selectDirectoryFiles, if_neg hall]
        exact Or.inr hq
      rw [if_pos hall2] at hp2
      exact hp2.2 hpF

/-- Witness for C4: the subset-deselect branch on a fully selected
directory, and the double-toggle branch starting from the empty
selection. -/
theorem directory_toggle_symmetric_witness :
    (∀ p ∈ getAllFilesInDirectory fsSmall
        (setSelections fsSmall (newSelector fsSmall)
          [["a", "x.txt"], ["a", "y.txt"]]).showHidden ["a"],
        p ∈ (setSelections fsSmall (newSelector fsSmall)
          [["a", "x.txt"], ["a", "y.txt"]]).selectedFiles)
    ∧ (selectDirectoryFiles fsSmall
        (setSelections fsSmall (newSelector fsSmall)
          [["a", "x.txt"], ["a", "y.txt"]]) ["a"]).selectedFiles
        = (setSelections fsSmall (newSelector fsSmall)
            [["a", "x.txt"], ["a", "y.txt"]]).selectedFiles \
          (getAllFilesInDirectory fsSmall
            (setSelections fsSmall (newSelector fsSmall)
              [["a", "x.txt"], ["a", "y.txt"]]).showHidden ["a"]).toFinset
    ∧ ["a", "x.txt"] ∈ (selectDirectoryFiles fsSmall (newSelector fsSmall) ["a"]).selectedFiles
    ∧ ["a", "x.txt"] ∉ (newSelector fsSmall).selectedFiles
    ∧ ["a", "x.txt"] ∉ (selectDirectoryFiles fsSmall
        (selectDirectoryFiles fsSmall (newSelector fsSmall) ["a"]) ["a"]).selectedFiles :=
  ⟨by decide,
    (directory_toggle_symmetric fsSmall
      (setSelections fsSmall (newSelector fsSmall) [["a", "x.txt"], ["a", "y.txt"]])
      ["a"]).1 (by decide),
    by decide, by decide,
    (directory_toggle_symmetric fsSmall (newSelector fsSmall) ["a"]).2
      ["a", "x.txt"] (by decide) (by decide)⟩

/-! ## Lookup under unique keys, and what the directory enumeration emits -/

theorem lookupKind_of_mem {fs : Fs} (hN : NodupKeys fs) {p : Path} {k : Kind}
    (h : (p, k) ∈ fs) : lookupKind fs p = some k := by
  induction fs with
  | nil => cases h
  | cons a l ih =>
    have hN2 := hN
    unfold NodupKeys at hN2
    rw [List.map_cons, List.nodup_cons] at hN2
    rcases List.mem_cons.mp h with rfl | h2
    · unfold lookupKind
      rw [List.find?_cons_of_pos _ (by simp)]
      rfl
    · have hne : (a.1 == p) = false := by
        rw [beq_eq_false_iff_ne]
        intro hc
        exact hN2.1 (hc ▸ List.mem_map.mpr ⟨(p, k), h2, rfl⟩)
      unfold lookupKind
      rw [List.find?_cons_of_neg _ (by simp [hne])]
      exact ih hN2.2 h2

theorem mem_foldr_gafStep {sh : Bool} {rec : Path → List Path}
    {l : List (Path × Kind)} {p : Path}
    (h : p ∈ l.foldr (gafStep sh rec) []) :
    ∃ e ∈ l, visibleP sh e.1 = true ∧
      ((e.2 = Kind.file ∧ p = e.1) ∨ (e.2 ≠ Kind.file ∧ p ∈ rec e.1)) := by
  induction l with
  | nil => cases h
  | cons a l ih =>
    rw [List.foldr_cons] at h
    unfold gafStep at h
    rcases List.mem_append.mp h with h2 | h2
    · by_cases hv : visibleP sh a.1 = true
      · rw [if_pos hv] at h2
        rcases hk : a.2 with _ | _ | _
        · rw [hk] at h2
          refine ⟨a, List.mem_cons_self a l, hv, Or.inl ⟨hk, ?_⟩⟩
          simpa using h2
        · rw [hk] at h2
          exact ⟨a, List.mem_cons_self a l, hv, Or.inr ⟨(by simp [hk]), h2⟩⟩
        · rw [hk] at h2
          exact ⟨a, List.mem_cons_self a l, hv, Or.inr ⟨(by simp [hk]), h2⟩⟩
      · rw [if_neg hv] at h2
        cases h2
    · rcases ih h2 with ⟨e, he, hc⟩
      exact ⟨e, List.mem_cons_of_mem a he, hc⟩

theorem getAllFilesF_kind :
    ∀ (fuel : Nat) (fs : Fs) (sh : Bool) (d p : Path),
      NodupKeys fs → p ∈ getAllFilesF fuel fs sh d →
      lookupKind fs p = some Kind.file := by
  intro fuel
  induction fuel with
  | zero => intro fs sh d p _ h; cases h
  | succ f ih =>
    intro fs sh d p hN h
    simp only [getAllFilesF] at h
    rcases hl : lookupKind fs d with _ | k
    · rw [hl] at h; cases h
    · rw [hl] at h
      cases k with
      | file => cases h
      | dirUnreadable => cases h
      | dirReadable =>
        rcases mem_foldr_gafStep h with ⟨e, he, _, hc⟩
        rcases hc with ⟨hk, rfl⟩ | ⟨_, hr⟩
        · rcases mem_childrenOf.mp he with ⟨hm, _, _⟩
          have : (e.1, e.2) ∈ fs := by
            rcases e with ⟨q, k2⟩; exact hm
          exact hk ▸ lookupKind_of_mem hN this
        · exact ih fs sh e.1 p hN hr

theorem getAllFiles_kind {fs : Fs} {sh : Bool} {d p : Path}
    (hN : NodupKeys fs) (h : p ∈ getAllFilesInDirectory fs sh d) :
    lookupKind fs p = some Kind.file :=
  getAllFilesF_kind (maxPathLen fs + 1) fs sh d p hN h

theorem isDirAt_of_file {fs : Fs} {p : Path}
    (h : lookupKind fs p = some Kind.file) : isDirAt fs p = false := by
  unfold isDirAt
  rw [h]

theorem mem_foldl_items {items : List FileItem} {sel : Finset Path} {x : Path} :
    x ∈ items.foldl (fun t it => if it.isDir then t else insert it.path t) sel ↔
      x ∈ sel ∨ ∃ it ∈ items, it.isDir = false ∧ x = it.path := by
  induction items generalizing sel with
  | nil => simp
  | cons a l ih =>
    rw [List.foldl_cons, ih]
    by_cases hd : a.isDir = true
    · rw [if_pos hd]
      constructor
      · rintro (h | ⟨it, hit, h1, h2⟩)
        · exact Or.inl h
        · exact Or.inr ⟨it, List.mem_cons_of_mem a hit, h1, h2⟩
      · rintro (h | ⟨it, hit, h1, h2⟩)
        · exact Or.inl h
        · rcases List.mem_cons.mp hit with rfl | hit2
          · rw [hd] at h1; cases h1
          · exact Or.inr ⟨it, hit2, h1, h2⟩
    · rw [if_neg hd]
      have hd2 : a.isDir = false := by
        cases hda : a.isDir
        · rfl
        · exact absurd hda hd
      constructor
      · rintro (h | ⟨it, hit, h1, h2⟩)
        · rcases Finset.mem_insert.mp h with rfl | h2
          · exact Or.inr ⟨a, List.mem_cons_self a l, hd2, rfl⟩
          · exact Or.inl h2
        · exact Or.inr ⟨it, List.mem_cons_of_mem a hit, h1, h2⟩
      · rintro (h | ⟨it, hit, h1, h2⟩)
        · exact Or.inl (Finset.mem_insert_of_mem h)
        · rcases List.mem_cons.mp hit with rfl | hit2
          · rw [h2]
            exact Or.inl (Finset.mem_insert_self it.path sel)
          · exact Or.inr ⟨it, hit2, h1, h2⟩

/-- C7 counterexample: `set_selections` installs a persisted selection
verbatim, so installing a list that contains the directory path `a` makes a
directory a member of the selection set. -/
theorem set_selections_installs_directories_counterexample :
    ["a"] ∈ (setSelections fsDirOnly (newSelector fsDirOnly) [["a"]]).selectedFiles
    ∧ isDirAt fsDirOnly ["a"] = true :=
  ⟨by decide, by decide⟩

/-- C7 as amended: the file toggle, the directory toggle and select-all
preserve the invariant that no selection member is a directory of the
current filesystem (they only ever insert paths the materialization or the
directory enumeration reports as files); `set_selections`, however,
installs the given persisted list verbatim with no filtering, so it
preserves the invariant only when that list itself contains no directory
path. -/
theorem selection_never_holds_directories (fs : Fs) (s : Selector)
    (hN : NodupKeys fs)
    (hinv : SelInv fs s.selectedFiles)
    (hrefl : ∀ it ∈ s.items, it.isDir = isDirAt fs it.path) :
    (∀ d : Path, SelInv fs (selectDirectoryFiles fs s d).selectedFiles)
    ∧ SelInv fs (toggleSelection fs s).selectedFiles
    ∧ SelInv fs (selectAllFiles fs s).selectedFiles
    ∧ ∀ l : List Path, (setSelections fs s l).selectedFiles = l.toFinset := by
  have hdir : ∀ d : Path, SelInv fs (selectDirectoryFiles fs s d).selectedFiles := by
    intro d p hp
    rw [mem_selectDirectoryFiles] at hp
    by_cases hall : (getAllFilesInDirectory fs s.showHidden d).all
        (fun f => decide (f ∈ s.selectedFiles)) = true
    · rw [if_pos hall] at hp
      exact hinv p hp.1
    · rw [if_neg hall] at hp
      rcases hp with h | h
      · exact hinv p h
      · exact isDirAt_of_file (getAllFiles_kind hN h)
  refine ⟨hdir, ?_, ?_, ?_⟩
  · unfold toggleSelection
    rcases hc : s.cursor with _ | i
    · exact hinv
    · dsimp only
      by_cases hi : i < s.items.length
      · rw [dif_pos hi]
        by_cases hd : (s.items.get ⟨i, hi⟩).isDir = true
        · rw [if_pos hd]
          exact hdir _
        · rw [if_neg hd]
          intro p hp
          rw [refreshItems_eq] at hp
          dsimp only at hp
          unfold toggleFilePath at hp
          by_cases hmem : (s.items.get ⟨i, hi⟩).path ∈ s.selectedFiles
          · rw [if_pos hmem] at hp
            exact hinv p (Finset.mem_of_mem_erase hp)
          · rw [if_neg hmem] at hp
            rcases Finset.mem_insert.mp hp with rfl | hp2
            · have h2 := hrefl _ (s.items.get_mem i hi)
              rw [← h2]
              cases hdi : (s.items.get ⟨i, hi⟩).isDir
              · rfl
              · exact absurd hdi hd
            · exact hinv p hp2
      · rw [dif_neg hi]
        exact hinv
  · unfold selectAllFiles
    dsimp only
    intro p hp
    rw [refreshItems_eq] at hp
    dsimp only at hp
    rw [mem_foldl_items] at hp
    rcases hp with h | ⟨it, hit, h1, rfl⟩
    · exact hinv p h
    · rw [← hrefl it hit, h1]
  · intro l
    unfold setSelections
    rw [refreshItems_eq]

/-- Witness for the amended C7 on the scenario fixture. -/
theorem selection_never_holds_directories_witness :
    NodupKeys fsSmall
    ∧ SelInv fsSmall (newSelector fsSmall).selectedFiles
    ∧ (∀ it ∈ (newSelector fsSmall).items, it.isDir = isDirAt fsSmall it.path)
    ∧ ((∀ d : Path,
          SelInv fsSmall (selectDirectoryFiles fsSmall (newSelector fsSmall) d).selectedFiles)
        ∧ SelInv fsSmall (toggleSelection fsSmall (newSelector fsSmall)).selectedFiles
        ∧ SelInv fsSmall (selectAllFiles fsSmall (newSelector fsSmall)).selectedFiles
        ∧ ∀ l : List Path,
            (setSelections fsSmall (newSelector fsSmall) l).selectedFiles = l.toFinset) :=
  ⟨by decide, by decide, by decide,
    selection_never_holds_directories fsSmall (newSelector fsSmall)
      (by decide) (by decide) (by decide)⟩

/-! ## Characterizing the directory-toggle enumeration -/

theorem gafStep_eq (sh : Bool) (rec : Path → List Path) (e : Path × Kind)
    (acc : List Path) :
    gafStep sh rec e acc
      = (if visibleP sh e.1 then
          match e.2 with
          | Kind.file => [e.1]
          | _ => rec e.1
        else []) ++ acc := rfl

theorem ReachFile_src_readable {fs : Fs} {sh : Bool} {d p : Path}
    (h : ReachFile fs sh d p) : lookupKind fs d = some Kind.dirReadable := by
  cases h with
  | file h1 _ _ _ _ => exact h1
  | dir h1 _ _ _ _ _ => exact h1

theorem ReachFile_strict_extension {fs : Fs} {sh : Bool} {d p : Path}
    (h : ReachFile fs sh d p) : d <+: p ∧ d.length < p.length := by
  induction h with
  | file _ _ h3 h4 _ => exact ⟨h4, by omega⟩
  | dir _ _ h3 h4 _ _ ih => exact ⟨h4.trans ih.1, by omega⟩

theorem mem_foldr_gafStep_of {sh : Bool} {rec : Path → List Path}
    {l : List (Path × Kind)} {e : Path × Kind} (he : e ∈ l)
    (hv : visibleP sh e.1 = true) :
    (e.2 = Kind.file → e.1 ∈ l.foldr (gafStep sh rec) [])
    ∧ ∀ p, e.2 ≠ Kind.file → p ∈ rec e.1 → p ∈ l.foldr (gafStep sh rec) [] := by
  induction l with
  | nil => cases he
  | cons a l ih =>
    rw [List.foldr_cons, gafStep_eq]
    rcases List.mem_cons.mp he with rfl | he2
    · constructor
      · intro hk
        rw [if_pos hv, hk]
        exact List.mem_append_left _ (by simp)
      · intro p hk hp
        rw [if_pos hv]
        rcases hkind : e.2 with _ | _ | _
        · exact absurd hkind hk
        · exact List.mem_append_left _ hp
        · exact List.mem_append_left _ hp
    · have ih2 := ih he2
      constructor
      · intro hk
        exact List.mem_append_right _ (ih2.1 hk)
      · intro p hk hp
        exact List.mem_append_right _ (ih2.2 p hk hp)

theorem getAllFilesF_reach :
    ∀ (fuel : Nat) (fs : Fs) (sh : Bool) (d p : Path),
      NodupKeys fs → p ∈ getAllFilesF fuel fs sh d → ReachFile fs sh d p := by
  intro fuel
  induction fuel with
  | zero => intro fs sh d p _ h; cases h
  | succ f ih =>
    intro fs sh d p hN h
    simp only [getAllFilesF] at h
    rcases hl : lookupKind fs d with _ | k
    · rw [hl] at h; cases h
    · rw [hl] at h
      cases k with
      | file => cases h
      | dirUnreadable => cases h
      | dirReadable =>
        rcases mem_foldr_gafStep h with ⟨e, he, hv, hc⟩
        rcases mem_childrenOf.mp he with ⟨hm, hlen, hpre⟩
        have hek : lookupKind fs e.1 = some e.2 :=
          lookupKind_of_mem hN (by rcases e with ⟨q, k2⟩; exact hm)
        rcases hc with ⟨hk, rfl⟩ | ⟨hk, hr⟩
        · exact ReachFile.file hl (hk ▸ hek) hlen hpre hv
        · have hreach := ih fs sh e.1 p hN hr
          exact ReachFile.dir hl (ReachFile_src_readable hreach) hlen hpre hv hreach

theorem reach_mem {fs : Fs} {sh : Bool} {d p : Path}
    (h : ReachFile fs sh d p) : p ∈ getAllFilesInDirectory fs sh d := by
  induction h with
  | @file d2 q h1 h2 h3 h4 h5 =>
    rw [getAllFiles_readable h1]
    exact (mem_foldr_gafStep_of
      (e := (q, Kind.file))
      (mem_childrenOf.mpr ⟨lookupKind_mem h2, h3, h4⟩) h5).1 rfl
  | @dir d2 q p2 h1 h2 h3 h4 h5 h6 ih =>
    rw [getAllFiles_readable h1]
    exact (mem_foldr_gafStep_of
      (e := (q, Kind.dirReadable))
      (mem_childrenOf.mpr ⟨lookupKind_mem h2, h3, h4⟩) h5).2 p2
      (by intro hc; cases hc) ih

theorem ReachFile_ancestors_visible {fs : Fs} {sh : Bool} {d p : Path}
    (h : ReachFile fs sh d p) :
    ∀ q : Path, d <+: q → q <+: p → q ≠ d → visibleP sh q = true := by
  induction h with
  | @file d2 p2 h1 h2 h3 h4 h5 =>
    intro q hq1 hq2 hq3
    have hlen1 : d2.length < q.length := by
      rcases Nat.lt_or_ge d2.length q.length with h6 | h6
      · exact h6
      · exact absurd (hq1.eq_of_length (le_antisymm hq1.length_le h6)).symm hq3
    have hqp : q = p2 := by
      refine hq2.eq_of_length ?_
      have := hq2.length_le
      omega
    rw [hqp]
    exact h5
  | @dir d2 q2 p2 h1 h2 h3 h4 h5 h6 ih =>
    intro q hq1 hq2 hq3
    have hlen1 : d2.length < q.length := by
      rcases Nat.lt_or_ge d2.length q.length with h6 | h6
      · exact h6
      · exact absurd (hq1.eq_of_length (le_antisymm hq1.length_le h6)).symm hq3
    by_cases hqq : q = q2
    · rw [hqq]
      exact h5
    · have hq2p : q2 <+: p2 := (ReachFile_strict_extension h6).1
      rcases Nat.lt_or_ge q2.length q.length with h7 | h7
      · exact ih q (List.prefix_of_prefix_length_le hq2p hq2 (Nat.le_of_lt h7)) hq2 hqq
      · have : q <+: q2 := List.prefix_of_prefix_length_le hq2 hq2p h7
        have hql : q.length = q2.length := by
          have := this.length_le
          omega
        exact absurd (this.eq_of_length hql) hqq

/-- C10: the file set computed for a directory toggle contains exactly the
files reachable from the directory through listable directories — with no
reference to the expanded set, so expansion state never matters — and every
step of the chain passes the hidden filter, so with show-hidden off no
returned path has any component below the directory whose name starts with
a dot: the scope of a directory toggle depends on the show-hidden flag. -/
theorem getAllFiles_scope (fs : Fs) (sh : Bool) (d : Path) (hN : NodupKeys fs) :
    (∀ p : Path, p ∈ getAllFilesInDirectory fs sh d ↔ ReachFile fs sh d p)
    ∧ ∀ p ∈ getAllFilesInDirectory fs false d,
        ∀ q : Path, d <+: q → q <+: p → q ≠ d → dotName (nameOf q) = false := by
  constructor
  · intro p
    exact ⟨fun h => getAllFilesF_reach (maxPathLen fs + 1) fs sh d p hN h, reach_mem⟩
  · intro p hp q h1 h2 h3
    have hreach := getAllFilesF_reach (maxPathLen fs + 1) fs false d p hN hp
    have hv := ReachFile_ancestors_visible hreach q h1 h2 h3
    unfold visibleP at hv
    simpa using hv

/-- Witness for C10 on the hidden-file fixture. -/
theorem getAllFiles_scope_witness :
    NodupKeys fsHidden
    ∧ ((∀ p : Path, p ∈ getAllFilesInDirectory fsHidden false [] ↔ ReachFile fsHidden false [] p)
        ∧ ∀ p ∈ getAllFilesInDirectory fsHidden false [],
            ∀ q : Path, ([] : Path) <+: q → q <+: p → q ≠ [] → dotName (nameOf q) = false) :=
  ⟨by decide, getAllFiles_scope fsHidden false [] (by decide)⟩

/-- C3: a successful materialization of a directory emits exactly its
hidden-filtered children sorted directories-before-files and
lexicographically by name within each group (`List.Sorted entLE` together
with the membership characterization), in the interleaved flattened form:
each child row followed immediately by its recursively materialized rows
exactly when that child is a directory whose path is in the expanded set.
Every emitted row strictly extends the directory path, its depth is the
row depth of the directory plus the number of extra path components (children at
`depth`, grandchildren at `depth + 1`, …), and every strict intermediate
ancestor of an emitted row lies in the expanded set — no row appears whose
parent directory is collapsed. -/
theorem materialization_order_and_scope (fs : Fs) (sh : Bool)
    (exp sel : Finset Path) (d : Path) (depth : Nat)
    (hok : (buildTree fs sh exp sel d depth).2 = true) :
    List.Sorted entLE (sortedChildren fs sh d)
    ∧ (∀ e : Path × Kind, e ∈ sortedChildren fs sh d ↔
        e ∈ fs ∧ e.1.length = d.length + 1 ∧ d <+: e.1 ∧ visibleP sh e.1 = true)
    ∧ (buildTree fs sh exp sel d depth).1 =
        ((sortedChildren fs sh d).map (fun e =>
          childRow exp sel depth e ::
            (if kindIsDir e.2 && decide (e.1 ∈ exp)
             then (buildTree fs sh exp sel e.1 (depth + 1)).1 else []))).flatten
    ∧ ∀ r ∈ (buildTree fs sh exp sel d depth).1,
        d <+: r.path ∧ d ≠ r.path
        ∧ r.depth + d.length + 1 = depth + r.path.length
        ∧ ∀ q : Path, d <+: q → q <+: r.path → q ≠ d → q ≠ r.path → q ∈ exp := by
  have hd : lookupKind fs d = some Kind.dirReadable := by
    by_contra hc
    rw [buildTree_notReadable hc] at hok
    cases hok
  refine ⟨sortedChildren_sorted fs sh d, ?_, ?_, ?_⟩
  · intro e
    rw [mem_sortedChildren, mem_childrenOf]
    tauto
  · rw [buildTree_readable hd] at hok ⊢
    unfold buildRows at hok ⊢
    exact foldr_rowStep_flatten hok
  · intro r hr
    exact buildTree_rowSpec hr

/-- Witness for C3 on the scenario fixture with `a` expanded. -/
theorem materialization_order_and_scope_witness :
    (buildTree fsSmall false {[], ["a"]} ∅ [] 0).2 = true
    ∧ (List.Sorted entLE (sortedChildren fsSmall false [])
      ∧ (∀ e : Path × Kind, e ∈ sortedChildren fsSmall false [] ↔
          e ∈ fsSmall ∧ e.1.length = ([] : Path).length + 1 ∧ ([] : Path) <+: e.1
            ∧ visibleP false e.1 = true)
      ∧ (buildTree fsSmall false {[], ["a"]} ∅ [] 0).1 =
          ((sortedChildren fsSmall false []).map (fun e =>
            childRow {[], ["a"]} ∅ 0 e ::
              (if kindIsDir e.2 && decide (e.1 ∈ ({[], ["a"]} : Finset Path))
               then (buildTree fsSmall false {[], ["a"]} ∅ e.1 (0 + 1)).1 else []))).flatten
      ∧ ∀ r ∈ (buildTree fsSmall false {[], ["a"]} ∅ [] 0).1,
          ([] : Path) <+: r.path ∧ ([] : Path) ≠ r.path
          ∧ r.depth + ([] : Path).length + 1 = 0 + r.path.length
          ∧ ∀ q : Path, ([] : Path) <+: q → q <+: r.path → q ≠ [] → q ≠ r.path →
              q ∈ ({[], ["a"]} : Finset Path)) :=
  ⟨by decide, materialization_order_and_scope fsSmall false {[], ["a"]} ∅ [] 0 (by decide)⟩

end TreeTxt
